import Mathlib

/-!
Verification of `biofrost.analysis.alignment.expectation_maximization`.

A shallow embedding of the Expectation-Maximization abundance estimator of
`src/biofrost/analysis/alignment.py` (function `expectation_maximization`),
together with proofs settling the frozen claims about it.

Modelling decisions, in correspondence with the Python/pandas source:

* Machine floats are modelled exactly: a value is either a finite rational
  (`PFloat.fin q`) or a non-finite poison value (`PFloat.nan`).  The source
  never produces an infinity on any reachable path (every division whose
  denominator is zero also has a numerator that is zero or already NaN,
  because per-index groups are singletons and all abundances are
  non-negative), so `PFloat.nan` stands for "NaN or non-finite".  Rounding
  error is not modelled; the claims under examination are stated up to
  tolerance, and the identities proved here are exact.
* pandas `Series.sum()` skips NaN entries (`skipna=True`); this is modelled
  by `skipnaSum`, which adds the finite entries and ignores `nan` ones
  (summing an all-NaN or empty series gives `0`, as pandas does).
* A pandas `Series` is an association list `List (String × PFloat)`; all the
  series appearing in the algorithm are indexed by the category universe `g`,
  so element-wise arithmetic between them is index-aligned pointwise.
* Python exceptions are modelled by `Except EMError`:
  `1/g.shape[0]` on an empty category universe raises `ZeroDivisionError`;
  `int(1/delta)` with `delta == 0.0` (a numpy float64) yields `inf` and then
  `int` raises `OverflowError`; `n_step % int(max_iter/100)` raises
  `ZeroDivisionError` when `max_iter < 100` (only evaluated when `verbose`
  is true).  `invalidInput` and `degenerateDistribution` are the error
  classes named by the specification's error taxonomy; the source never
  constructs either.
* The `while 1:` loop is driven by explicit fuel; `max_iter + 1` units are
  always sufficient (proved below), so `fuelExhausted` is unreachable.

The arithmetic of `ℚ` in Batteries is `@[irreducible]`; the concrete runs
of the algorithm in the witness theorems are evaluated by `decide`, which
needs those operations restored to their natural reducibility.
-/

set_option allowUnsafeReducibility true

attribute [semireducible] Rat.add Rat.mul Rat.inv Rat.sub Rat.neg Rat.div Rat.blt

namespace Biofrost

/-- A float64 value: a finite rational, or a non-finite poison value
(NaN; the reachable computations of the source never build an infinity). -/
inductive PFloat where
  | fin : ℚ → PFloat
  | nan : PFloat
deriving DecidableEq, Repr

namespace PFloat

/-- IEEE addition on finite-or-NaN values. -/
def add : PFloat → PFloat → PFloat
  | fin a, fin b => fin (a + b)
  | _, _ => nan

/-- IEEE subtraction on finite-or-NaN values. -/
def sub : PFloat → PFloat → PFloat
  | fin a, fin b => fin (a - b)
  | _, _ => nan

/-- IEEE multiplication on finite-or-NaN values (note `nan * 0 = nan`). -/
def mul : PFloat → PFloat → PFloat
  | fin a, fin b => fin (a * b)
  | _, _ => nan

/-- Division; a zero denominator poisons the result.  On every reachable
division of the source the numerator is zero or NaN whenever the denominator
is zero (yielding IEEE NaN), so conflating `x/0` with NaN is faithful. -/
def div : PFloat → PFloat → PFloat
  | fin a, fin b => if b = 0 then nan else fin (a / b)
  | _, _ => nan

/-- Absolute value. -/
def abs : PFloat → PFloat
  | fin a => fin |a|
  | nan => nan

/-- The comparison `x < t` against a finite threshold; any comparison with
NaN is false, as in IEEE arithmetic. -/
def ltQ (x : PFloat) (t : ℚ) : Bool :=
  match x with
  | fin a => decide (a < t)
  | nan => false

end PFloat

/-- pandas `Series.sum()` with its default `skipna=True`: add the finite
entries, ignore the NaN ones (an all-NaN or empty series sums to `0`). -/
def skipnaSum (l : List PFloat) : ℚ :=
  l.foldr (fun v acc => match v with | .fin q => q + acc | .nan => acc) 0

/-- A pandas `Series`: an association list from index labels to values. -/
abbrev Series := List (String × PFloat)

/-- Scalar lookup `s[k]` on a series.  Every lookup performed by the source
uses a label present in the index; an absent label is mapped to NaN. -/
def lookupPF (s : Series) (k : String) : PFloat :=
  match s.find? (fun p => p.1 == k) with
  | some p => p.2
  | none => .nan

/-- NaN-propagating total of a series' values (the plain mathematical sum,
used to *state* normalization claims; the algorithm itself uses
`skipnaSum`). -/
def totalMass (s : Series) : PFloat :=
  s.foldr (fun p acc => PFloat.add p.2 acc) (.fin 0)

/-- First-occurrence deduplication keeping input order; `seen` accumulates
the labels already emitted.  (The label set agrees with `np.unique`, which
additionally sorts; no claim depends on index order.) -/
def uniqueKeysAux : List String → List String → List String
  | _, [] => []
  | seen, x :: xs =>
    if seen.contains x then uniqueKeysAux seen xs
    else x :: uniqueKeysAux (x :: seen) xs

/-- The distinct labels of a list, in order of first occurrence. -/
def uniqueKeys (l : List String) : List String :=
  uniqueKeysAux [] l

/-- A row of the DataFrame `df = pd.DataFrame({"Read": reads, "Gene":
classifications})`: the original positional index label plus the two
columns.  `df.drop_duplicates()` keeps the original labels. -/
structure EMRow where
  idx : ℕ
  read : String
  gene : String
deriving DecidableEq, Repr

/-- The DataFrame rows with their positional index labels, starting at `i`. -/
def indexRows : ℕ → List (String × String) → List EMRow
  | _, [] => []
  | i, p :: ps => ⟨i, p.1, p.2⟩ :: indexRows (i + 1) ps

/-- `df.drop_duplicates()`: drop rows whose (Read, Gene) pair already
occurred, keeping the first occurrence with its index label. -/
def dedupRowsAux : List (String × String) → List EMRow → List EMRow
  | _, [] => []
  | seen, r :: rs =>
    if seen.contains (r.read, r.gene) then dedupRowsAux seen rs
    else r :: dedupRowsAux ((r.read, r.gene) :: seen) rs

/-- The deduplicated DataFrame built from the two input arrays. -/
def dfRows (reads classifications : List String) : List EMRow :=
  dedupRowsAux [] (indexRows 0 (reads.zip classifications))

/-- `g = np.unique(classifications)`: the category universe. -/
def catUniverse (classifications : List String) : List String :=
  uniqueKeys classifications

/-- `hits[r]`: the number of deduplicated rows carrying read `r`
(`df.groupby("Read").apply(lambda x: x.shape[0])`). -/
def hitCount (reads classifications : List String) (r : String) : ℕ :=
  ((dfRows reads classifications).filter (fun row => row.read == r)).length

/-- A read is *unique* when it has exactly one deduplicated row
(`unique_reads = hits[hits == 1].index`). -/
def isUniqueRead (reads classifications : List String) (r : String) : Bool :=
  hitCount reads classifications r == 1

/-- `unique_genes[k]`: the number of rows whose read is unique and whose
gene is `k` (`Counter` of the unique rows' genes, reindexed over `g` and
zero-filled). -/
def uniqueGenesVal (reads classifications : List String) (k : String) : ℚ :=
  (((dfRows reads classifications).filter
    (fun row => isUniqueRead reads classifications row.read && row.gene == k)).length : ℚ)

/-- The series `unique_genes`, indexed by the category universe. -/
def uniqueGenes (reads classifications : List String) : Series :=
  (catUniverse classifications).map
    (fun k => (k, PFloat.fin (uniqueGenesVal reads classifications k)))

/-- `ambiguous_reads`: the rows whose read is not unique. -/
def ambRows (reads classifications : List String) : List EMRow :=
  (dfRows reads classifications).filter
    (fun row => ! isUniqueRead reads classifications row.read)

/-- `n_ambiguous = ambiguous_reads['Read'].unique().shape[0]`. -/
def nAmbiguous (reads classifications : List String) : ℕ :=
  (uniqueKeys ((ambRows reads classifications).map (fun r => r.read))).length

/-- The distinct unique reads, `unique_reads`. -/
def uniqueReadsList (reads classifications : List String) : List String :=
  (uniqueKeys ((dfRows reads classifications).map (fun r => r.read))).filter
    (isUniqueRead reads classifications)

/-- `n_unique = unique_reads.shape[0]`. -/
def nUnique (reads classifications : List String) : ℕ :=
  (uniqueReadsList reads classifications).length

/-- `unique_genes.sum()`. -/
def sumUnique (reads classifications : List String) : ℚ :=
  skipnaSum ((uniqueGenes reads classifications).map (fun p => p.2))

/-- `p = by_read.apply(lambda x: a_i[x['Gene']].sum())`, where
`by_read = ambiguous_reads.groupby(ambiguous_reads.index)` groups by the
DataFrame *row index* (not by the Read column): the value at index label `i`
sums the current abundances of the genes of the rows labelled `i`. -/
def pRow (reads classifications : List String) (a : Series) (i : ℕ) : ℚ :=
  skipnaSum (((ambRows reads classifications).filter (fun r => r.idx == i)).map
    (fun r => lookupPF a r.gene))

/-- `n_j = by_gene.apply(lambda x: (a_i[x.name] / p[x.index]).sum())`: for a
gene `k`, sum `a_i[k] / p[i]` over the ambiguous rows of gene `k` (a pandas
skip-NaN sum, hence always finite). -/
def nJ (reads classifications : List String) (a : Series) (k : String) : ℚ :=
  skipnaSum (((ambRows reads classifications).filter (fun r => r.gene == k)).map
    (fun r => PFloat.div (lookupPF a k)
      (.fin (pRow reads classifications a r.idx))))

/-- `a_j.sum()` after `a_j = pd.Series(n_j).reindex(g).fillna(0)` (the
values of `n_j` are skip-NaN sums and hence finite; the genes missing from
`n_j` are zero-filled, and `nj` evaluates to `0` there as well). -/
def emS1 (reads classifications : List String) (nj : String → ℚ) : ℚ :=
  skipnaSum ((catUniverse classifications).map (fun k => PFloat.fin (nj k)))

/-- The maximization step
`a_j = (a_j / a_j.sum() * n_ambiguous + unique_genes / unique_genes.sum()
* n_unique) / (n_ambiguous + n_unique)`, at gene `k`. -/
def emAj2 (reads classifications : List String) (nj : String → ℚ)
    (k : String) : PFloat :=
  PFloat.div
    (PFloat.add
      (PFloat.mul
        (PFloat.div (.fin (nj k)) (.fin (emS1 reads classifications nj)))
        (.fin (nAmbiguous reads classifications : ℚ)))
      (PFloat.mul
        (PFloat.div (.fin (uniqueGenesVal reads classifications k))
          (.fin (sumUnique reads classifications)))
        (.fin (nUnique reads classifications : ℚ))))
    (.fin ((nAmbiguous reads classifications : ℚ) + (nUnique reads classifications : ℚ)))

/-- `a_j.sum()` after the maximization step. -/
def emS2 (reads classifications : List String) (nj : String → ℚ) : ℚ :=
  skipnaSum ((catUniverse classifications).map (emAj2 reads classifications nj))

/-- The first renormalization `a_j = a_j / a_j.sum()`, at gene `k`. -/
def emAj3 (reads classifications : List String) (nj : String → ℚ)
    (k : String) : PFloat :=
  PFloat.div (emAj2 reads classifications nj k)
    (.fin (emS2 reads classifications nj))

/-- The de-noising `a_j[a_j < noise_threshold] = 0`, at gene `k` (a NaN
entry compares false and is kept). -/
def emAj4 (reads classifications : List String) (noise_threshold : ℚ)
    (nj : String → ℚ) (k : String) : PFloat :=
  if (emAj3 reads classifications nj k).ltQ noise_threshold then .fin 0
  else emAj3 reads classifications nj k

/-- `a_j.sum()` after de-noising. -/
def emS4 (reads classifications : List String) (noise_threshold : ℚ)
    (nj : String → ℚ) : ℚ :=
  skipnaSum ((catUniverse classifications).map
    (emAj4 reads classifications noise_threshold nj))

/-- The loop body after the E-step, as a function of the E-step weights
`nj`: maximization, renormalization, de-noising and the second
renormalization.  (`a_i` enters the body only through `n_j`; splitting here
makes that dependency explicit.) -/
def emStepFrom (reads classifications : List String) (noise_threshold : ℚ)
    (nj : String → ℚ) : String → PFloat := fun k =>
  PFloat.div (emAj4 reads classifications noise_threshold nj k)
    (.fin (emS4 reads classifications noise_threshold nj))

/-- One pass of the `while 1:` body up to the computation of `delta`:
the new abundance series `a_j` (indexed by `g`) together with
`delta = (a_j - a_i).abs().sum()` (a skip-NaN sum, hence a rational). -/
def emStep (reads classifications : List String) (noise_threshold : ℚ)
    (a : Series) : Series × ℚ :=
  ((catUniverse classifications).map (fun k =>
    (k, emStepFrom reads classifications noise_threshold
      (nJ reads classifications a) k)),
   skipnaSum ((catUniverse classifications).map (fun k =>
    (PFloat.sub
      (emStepFrom reads classifications noise_threshold
        (nJ reads classifications a) k)
      (lookupPF a k)).abs)))

/-- The number of decimal digits of a natural number, `len(str(n))`;
structural fuel keeps the definition kernel-reducible. -/
def numDigitsAux : ℕ → ℕ → ℕ
  | 0, _ => 1
  | fuel + 1, n => if n < 10 then 1 else 1 + numDigitsAux fuel (n / 10)

/-- `len(str(n))` for a natural number. -/
def numDigits (n : ℕ) : ℕ :=
  numDigitsAux n n

/-- `int(1/delta)` for a positive rational `delta`: truncation of `1/delta`
toward zero.  (Only the failure mode of this quantity is observable; its
value merely throttles the progress printing.) -/
def intInv (delta : ℚ) : ℕ :=
  ((1 / delta).num / ((1 / delta).den : ℤ)).toNat

/-- The Python exceptions the source can raise, plus the two error classes
named by the specification's error taxonomy (`InvalidInput`,
`DegenerateDistribution` — the source never constructs either of those),
plus the unreachable fuel sentinel of the embedding. -/
inductive EMError where
  | zeroDivisionError
  | overflowError
  | invalidInput
  | degenerateDistribution
  | fuelExhausted
deriving DecidableEq, Repr

instance {ε : Type} {α : Type} [DecidableEq ε] [DecidableEq α] :
    DecidableEq (Except ε α) := fun x y =>
  match x, y with
  | .error a, .error b =>
    match decEq a b with
    | isTrue h => isTrue (h ▸ rfl)
    | isFalse h => isFalse (fun hh => h (Except.error.inj hh))
  | .error _, .ok _ => isFalse (fun hh => Except.noConfusion hh)
  | .ok _, .error _ => isFalse (fun hh => Except.noConfusion hh)
  | .ok a, .ok b =>
    match decEq a b with
    | isTrue h => isTrue (h ▸ rfl)
    | isFalse h => isFalse (fun hh => h (Except.ok.inj hh))

/-- The `while 1:` loop.  State: remaining fuel, current abundance `a_i`,
the digit count `d_i` from the previous pass, and `n_step`.  On the break
it returns `(a_j, n_step)` together with the final `delta` (recorded so
that the stopping condition can be stated).  After a failed break test the
source computes `d_j = len(str(int(1/delta)))` — with `delta == 0.0` numpy
gives `1/delta == inf` and `int` raises `OverflowError` — and, when
`verbose` is true, evaluates `n_step % int(max_iter/100)`, which raises
`ZeroDivisionError` when `int(max_iter/100) == 0`, i.e. `max_iter < 100`.
The progress printing itself has no further effect; `d_j` is threaded into
the next pass as `d_i`. -/
def emLoop (reads classifications : List String) (noise_threshold : ℚ)
    (max_iter : ℕ) (max_delta : ℚ) (verbose : Bool) :
    ℕ → Series → ℕ → ℕ → Except EMError (Series × ℕ × ℚ)
  | 0, _, _, _ => .error .fuelExhausted
  | fuel + 1, a_i, _d_i, n_step =>
    if (emStep reads classifications noise_threshold a_i).2 ≤ max_delta
        ∨ n_step ≥ max_iter then
      .ok ((emStep reads classifications noise_threshold a_i).1, n_step,
        (emStep reads classifications noise_threshold a_i).2)
    else if (emStep reads classifications noise_threshold a_i).2 = 0 then
      .error .overflowError
    else if verbose && (max_iter / 100 == 0) then
      .error .zeroDivisionError
    else
      emLoop reads classifications noise_threshold max_iter max_delta verbose
        fuel (emStep reads classifications noise_threshold a_i).1
        (numDigits (intInv (emStep reads classifications noise_threshold a_i).2))
        (n_step + 1)

/-- `a_i = pd.Series(np.zeros(g.shape) + 1/g.shape[0], index=g)`: the
uniform initial abundance. -/
def initAbundance (classifications : List String) : Series :=
  (catUniverse classifications).map
    (fun k => (k, PFloat.fin (1 / ((catUniverse classifications).length : ℚ))))

/-- The full function, additionally exposing the final `delta` of the loop
(`none` on the no-ambiguous-reads short-circuit).  Control flow of the
source: building `a_i` divides by `g.shape[0]` (a `ZeroDivisionError` when
the category universe is empty, before any further computation); with no
ambiguous rows it returns `(unique_genes, 1)`; otherwise it runs the loop
from the uniform abundance with `n_step = 0` and `d_i = 0`. -/
def expectation_maximization_full (reads classifications : List String)
    (noise_threshold : ℚ) (max_iter : ℕ) (max_delta : ℚ) (verbose : Bool) :
    Except EMError (Series × ℕ × Option ℚ) :=
  if (catUniverse classifications).isEmpty then
    .error .zeroDivisionError
  else if (ambRows reads classifications).isEmpty then
    .ok (uniqueGenes reads classifications, 1, none)
  else
    match emLoop reads classifications noise_threshold max_iter max_delta
        verbose (max_iter + 1) (initAbundance classifications) 0 0 with
    | .ok (s, n, delta) => .ok (s, n, some delta)
    | .error e => .error e

/-- `expectation_maximization(reads, classifications, noise_threshold,
max_iter, max_delta, verbose)`: the estimated abundance series and the
number of iteration steps. -/
def expectation_maximization (reads classifications : List String)
    (noise_threshold : ℚ) (max_iter : ℕ) (max_delta : ℚ) (verbose : Bool) :
    Except EMError (Series × ℕ) :=
  (expectation_maximization_full reads classifications noise_threshold
    max_iter max_delta verbose).map (fun r => (r.1, r.2.1))

/-- The number of distinct ambiguous (read, gene) rows carrying gene `k`. -/
def pairCount (reads classifications : List String) (k : String) : ℕ :=
  ((ambRows reads classifications).filter (fun r => r.gene == k)).length

/-- `pairCount` as a rational, the constant E-step weight vector. -/
def cntQ (reads classifications : List String) (k : String) : ℚ :=
  (pairCount reads classifications k : ℚ)

/-- The abundance vector is nonzero (and finite) on every gene occurring in
an ambiguous row. -/
def posOnAmb (reads classifications : List String) (a : Series) : Prop :=
  ∀ r ∈ ambRows reads classifications,
    ∃ q : ℚ, lookupPF a r.gene = .fin q ∧ q ≠ 0

/-- The distinct categories assigned to read `r` after deduplication. -/
def readCats (reads classifications : List String) (r : String) : List String :=
  uniqueKeys (((dfRows reads classifications).filter
    (fun row => row.read == r)).map (fun row => row.gene))

/-! ## Basic lemmas: `PFloat`, `skipnaSum`, the index helpers -/

theorem PFloat.add_nan (x : PFloat) : PFloat.add x .nan = .nan := by
  cases x <;> rfl

theorem PFloat.nan_sub (y : PFloat) : PFloat.sub .nan y = .nan := by
  cases y <;> rfl

theorem PFloat.div_nan_left (y : PFloat) : PFloat.div .nan y = .nan := by
  cases y <;> rfl

theorem PFloat.div_zero_right (x : PFloat) : PFloat.div x (.fin 0) = .nan := by
  cases x <;> simp [PFloat.div]

theorem PFloat.sub_self_abs (x : PFloat) :
    (PFloat.sub x x).abs = .fin 0 ∨ (PFloat.sub x x).abs = .nan := by
  cases x with
  | fin q => left; simp [PFloat.sub, PFloat.abs]
  | nan => right; rfl

theorem skipnaSum_nil : skipnaSum [] = 0 := rfl

theorem skipnaSum_cons_fin (q : ℚ) (l : List PFloat) :
    skipnaSum (.fin q :: l) = q + skipnaSum l := rfl

theorem skipnaSum_cons_nan (l : List PFloat) :
    skipnaSum (.nan :: l) = skipnaSum l := rfl

theorem skipnaSum_map_eq_sum {α : Type} {l : List α} {F : α → PFloat}
    {f : α → ℚ} (h : ∀ x ∈ l, F x = .fin (f x)) :
    skipnaSum (l.map F) = (l.map f).sum := by
  induction l with
  | nil => rfl
  | cons x xs ih =>
    rw [List.map_cons, List.map_cons, h x (by simp), skipnaSum_cons_fin,
      List.sum_cons, ih (fun y hy => h y (by simp [hy]))]

theorem skipnaSum_eq_zero {l : List PFloat}
    (h : ∀ v ∈ l, v = .fin 0 ∨ v = .nan) : skipnaSum l = 0 := by
  induction l with
  | nil => rfl
  | cons x xs ih =>
    rcases h x (by simp) with h0 | h0 <;> subst h0
    · rw [skipnaSum_cons_fin, ih (fun v hv => h v (by simp [hv])), add_zero]
    · exact ih (fun v hv => h v (by simp [hv]))

theorem skipnaSum_eq_length {l : List PFloat}
    (h : ∀ v ∈ l, v = .fin 1) : skipnaSum l = (l.length : ℚ) := by
  induction l with
  | nil => rfl
  | cons x xs ih =>
    rw [h x (by simp), skipnaSum_cons_fin,
      ih (fun v hv => h v (by simp [hv])), List.length_cons]
    push_cast
    ring

theorem totalMass_map_fin {l : List String} {F : String → PFloat} {f : String → ℚ}
    (h : ∀ x ∈ l, F x = .fin (f x)) :
    totalMass (l.map (fun k => (k, F k))) = .fin ((l.map f).sum) := by
  induction l with
  | nil => rfl
  | cons x xs ih =>
    rw [List.map_cons, List.map_cons, List.sum_cons]
    show PFloat.add (F x) (totalMass (xs.map (fun k => (k, F k)))) = _
    rw [ih (fun y hy => h y (by simp [hy])), h x (by simp), PFloat.add]

theorem lookupPF_map_of_mem {g : List String} {F : String → PFloat} {k : String}
    (hk : k ∈ g) :
    lookupPF (g.map (fun x => (x, F x))) k = F k := by
  induction g with
  | nil => cases hk
  | cons x xs ih =>
    by_cases hx : x = k
    · subst hx
      unfold lookupPF
      rw [List.map_cons, List.find?_cons_of_pos _ (by simp)]
    · unfold lookupPF
      rw [List.map_cons, List.find?_cons_of_neg _ (by simp [hx])]
      rcases List.mem_cons.mp hk with rfl | hk2
      · exact absurd rfl hx
      · exact ih hk2

theorem mem_uniqueKeysAux {l : List String} {k : String} :
    ∀ {seen : List String}, k ∈ uniqueKeysAux seen l ↔ k ∈ l ∧ k ∉ seen := by
  induction l with
  | nil => intro seen; simp [uniqueKeysAux]
  | cons x xs ih =>
    intro seen
    by_cases hx : seen.contains x = true
    · have hxs : x ∈ seen := List.elem_iff.mp hx
      rw [uniqueKeysAux, if_pos hx, ih]
      simp only [List.mem_cons]
      constructor
      · rintro ⟨h1, h2⟩
        exact ⟨Or.inr h1, h2⟩
      · rintro ⟨h1 | h1, h2⟩
        · exact absurd (h1 ▸ hxs) h2
        · exact ⟨h1, h2⟩
    · have hxseen : x ∉ seen := fun hm => hx (List.elem_iff.mpr hm)
      rw [uniqueKeysAux, if_neg hx]
      simp only [List.mem_cons, ih]
      constructor
      · rintro (rfl | ⟨h1, h2⟩)
        · exact ⟨Or.inl rfl, hxseen⟩
        · push_neg at h2
          exact ⟨Or.inr h1, h2.2⟩
      · rintro ⟨rfl | h1, h2⟩
        · exact Or.inl rfl
        · by_cases hkx : k = x
          · exact Or.inl hkx
          · exact Or.inr ⟨h1, by simp [List.mem_cons, hkx, h2]⟩

theorem nodup_uniqueKeysAux (seen l : List String) :
    (uniqueKeysAux seen l).Nodup := by
  induction l generalizing seen with
  | nil => simp [uniqueKeysAux]
  | cons x xs ih =>
    by_cases hx : seen.contains x = true
    · rw [uniqueKeysAux, if_pos hx]; exact ih seen
    · rw [uniqueKeysAux, if_neg hx, List.nodup_cons]
      refine ⟨fun hmem => ?_, ih _⟩
      exact (mem_uniqueKeysAux.mp hmem).2 (List.mem_cons_self x seen)

theorem mem_uniqueKeys {l : List String} {k : String} :
    k ∈ uniqueKeys l ↔ k ∈ l := by
  rw [uniqueKeys, mem_uniqueKeysAux]; simp

theorem nodup_uniqueKeys (l : List String) : (uniqueKeys l).Nodup :=
  nodup_uniqueKeysAux [] l

theorem uniqueKeys_ne_nil {l : List String} (h : l ≠ []) :
    uniqueKeys l ≠ [] := by
  obtain ⟨x, xs, rfl⟩ := List.exists_cons_of_ne_nil h
  intro hnil
  have hx : x ∈ uniqueKeys (x :: xs) := mem_uniqueKeys.mpr (by simp)
  rw [hnil] at hx
  cases hx

theorem uniqueKeysAux_of_nodup {l : List String} (hnd : l.Nodup) :
    ∀ {seen : List String}, (∀ x ∈ l, x ∉ seen) → uniqueKeysAux seen l = l := by
  induction l with
  | nil => intro seen _; rfl
  | cons x xs ih =>
    intro seen hdisj
    rw [List.nodup_cons] at hnd
    rw [uniqueKeysAux,
      if_neg (fun hc => hdisj x (by simp) (List.elem_iff.mp hc))]
    congr 1
    refine ih hnd.2 (fun y hy => ?_)
    simp only [List.mem_cons]
    push_neg
    exact ⟨fun hyx => hnd.1 (hyx ▸ hy), hdisj y (List.mem_cons_of_mem _ hy)⟩

theorem uniqueKeys_of_nodup {l : List String} (hnd : l.Nodup) :
    uniqueKeys l = l :=
  uniqueKeysAux_of_nodup hnd (by simp)

theorem dedupRowsAux_sublist (seen : List (String × String)) (l : List EMRow) :
    List.Sublist (dedupRowsAux seen l) l := by
  induction l generalizing seen with
  | nil => exact List.Sublist.refl _
  | cons r rs ih =>
    rw [dedupRowsAux]
    by_cases hc : seen.contains (r.read, r.gene) = true
    · rw [if_pos hc]
      exact (ih seen).trans (List.sublist_cons_self r rs)
    · rw [if_neg hc]
      exact (ih _).cons₂ r

theorem dedupRowsAux_pairs (seen : List (String × String)) (l : List EMRow) :
    ((dedupRowsAux seen l).map (fun r => (r.read, r.gene))).Nodup ∧
      ∀ r ∈ dedupRowsAux seen l, (r.read, r.gene) ∉ seen := by
  induction l generalizing seen with
  | nil => exact ⟨List.nodup_nil, by simp [dedupRowsAux]⟩
  | cons r rs ih =>
    rw [dedupRowsAux]
    by_cases hc : seen.contains (r.read, r.gene) = true
    · rw [if_pos hc]; exact ih seen
    · rw [if_neg hc]
      obtain ⟨ihn, ihm⟩ := ih ((r.read, r.gene) :: seen)
      refine ⟨?_, ?_⟩
      · rw [List.map_cons, List.nodup_cons]
        refine ⟨fun hm => ?_, ihn⟩
        rcases List.mem_map.mp hm with ⟨s, hs, heq⟩
        exact ihm s hs (heq ▸ List.mem_cons_self _ _)
      · intro s hs
        rcases List.mem_cons.mp hs with rfl | hs2
        · exact fun hmem => hc (List.elem_iff.mpr hmem)
        · exact fun hmem => ihm s hs2 (List.mem_cons_of_mem _ hmem)

theorem indexRows_idx_ge (i : ℕ) (l : List (String × String)) :
    ∀ r ∈ indexRows i l, i ≤ r.idx := by
  induction l generalizing i with
  | nil => intro r hr; cases hr
  | cons p ps ih =>
    intro r hr
    rcases List.mem_cons.mp hr with rfl | hr2
    · exact le_refl _
    · exact (Nat.le_succ i).trans (ih (i + 1) r hr2)

theorem indexRows_idx_nodup (i : ℕ) (l : List (String × String)) :
    ((indexRows i l).map EMRow.idx).Nodup := by
  induction l generalizing i with
  | nil => simp [indexRows]
  | cons p ps ih =>
    rw [indexRows, List.map_cons, List.nodup_cons]
    refine ⟨fun hm => ?_, ih (i + 1)⟩
    rcases List.mem_map.mp hm with ⟨s, hs, heq⟩
    have hge := indexRows_idx_ge (i + 1) ps s hs
    rw [show (⟨i, p.1, p.2⟩ : EMRow).idx = i from rfl] at heq
    omega

theorem indexRows_mem_pairs (i : ℕ) (l : List (String × String)) :
    ∀ r ∈ indexRows i l, (r.read, r.gene) ∈ l := by
  induction l generalizing i with
  | nil => intro r hr; cases hr
  | cons p ps ih =>
    intro r hr
    rcases List.mem_cons.mp hr with rfl | hr2
    · simp
    · exact List.mem_cons_of_mem _ (ih (i + 1) r hr2)

/-! ## Structural lemmas about the deduplicated DataFrame -/

theorem dfRows_sublist (reads classifications : List String) :
    List.Sublist (dfRows reads classifications)
      (indexRows 0 (reads.zip classifications)) :=
  dedupRowsAux_sublist _ _

theorem dfRows_idx_nodup (reads classifications : List String) :
    ((dfRows reads classifications).map EMRow.idx).Nodup :=
  ((dfRows_sublist reads classifications).map EMRow.idx).nodup
    (indexRows_idx_nodup 0 _)

theorem dfRows_pairs_nodup (reads classifications : List String) :
    ((dfRows reads classifications).map (fun r => (r.read, r.gene))).Nodup :=
  (dedupRowsAux_pairs [] _).1

theorem mem_dfRows_read {reads classifications : List String} {r : EMRow}
    (hr : r ∈ dfRows reads classifications) : r.read ∈ reads :=
  (List.of_mem_zip (indexRows_mem_pairs 0 _ r
    ((dfRows_sublist reads classifications).subset hr))).1

theorem mem_dfRows_gene {reads classifications : List String} {r : EMRow}
    (hr : r ∈ dfRows reads classifications) : r.gene ∈ classifications :=
  (List.of_mem_zip (indexRows_mem_pairs 0 _ r
    ((dfRows_sublist reads classifications).subset hr))).2

theorem ambRows_sublist (reads classifications : List String) :
    List.Sublist (ambRows reads classifications) (dfRows reads classifications) :=
  List.filter_sublist _

theorem ambRows_idx_nodup (reads classifications : List String) :
    ((ambRows reads classifications).map EMRow.idx).Nodup :=
  ((ambRows_sublist reads classifications).map EMRow.idx).nodup
    (dfRows_idx_nodup reads classifications)

theorem mem_ambRows_gene {reads classifications : List String} {r : EMRow}
    (hr : r ∈ ambRows reads classifications) :
    r.gene ∈ catUniverse classifications :=
  mem_uniqueKeys.mpr
    (mem_dfRows_gene ((ambRows_sublist reads classifications).subset hr))

theorem catUniverse_ne_nil {reads classifications : List String}
    (hamb : ambRows reads classifications ≠ []) :
    catUniverse classifications ≠ [] := by
  intro hg
  obtain ⟨r, hr⟩ := List.exists_mem_of_ne_nil _ hamb
  have := mem_ambRows_gene hr
  rw [hg] at this
  cases this

theorem nAmbiguous_pos {reads classifications : List String}
    (hamb : ambRows reads classifications ≠ []) :
    0 < nAmbiguous reads classifications := by
  obtain ⟨r, hr⟩ := List.exists_mem_of_ne_nil _ hamb
  have hm : r.read ∈ uniqueKeys ((ambRows reads classifications).map
      (fun s => s.read)) :=
    mem_uniqueKeys.mpr (List.mem_map.mpr ⟨r, hr, rfl⟩)
  rw [nAmbiguous]
  exact List.length_pos.mpr (fun hnil => by rw [hnil] at hm; cases hm)

/-- Each `by_read` group (grouping by the DataFrame index) is a single
row: the index labels of the ambiguous rows are pairwise distinct. -/
theorem filter_idx_singleton {l : List EMRow}
    (hnd : (l.map EMRow.idx).Nodup) {r : EMRow} (hr : r ∈ l) :
    l.filter (fun s => s.idx == r.idx) = [r] := by
  induction l with
  | nil => cases hr
  | cons x xs ih =>
    rw [List.map_cons, List.nodup_cons] at hnd
    rcases List.mem_cons.mp hr with rfl | hr2
    · rw [List.filter_cons_of_pos (by simp)]
      have hnil : xs.filter (fun s => s.idx == r.idx) = [] := by
        rw [List.filter_eq_nil_iff]
        intro s hs hbeq
        rw [beq_iff_eq] at hbeq
        exact hnd.1 (List.mem_map.mpr ⟨s, hs, hbeq⟩)
      rw [hnil]
    · have hne : (x.idx == r.idx) = false := by
        rw [beq_eq_false_iff_ne]
        intro heq
        exact hnd.1 (heq ▸ List.mem_map.mpr ⟨r, hr2, rfl⟩)
      rw [List.filter_cons_of_neg (by simp [hne]), ih hnd.2 hr2]

/-! ## The degenerate E-step: `n_j` equals the ambiguous pair counts -/

theorem pRow_of_mem {reads classifications : List String} {a : Series}
    {r : EMRow} (hr : r ∈ ambRows reads classifications) :
    pRow reads classifications a r.idx = skipnaSum [lookupPF a r.gene] := by
  rw [pRow, filter_idx_singleton (ambRows_idx_nodup reads classifications) hr,
    List.map_cons, List.map_nil]

/-- On any abundance vector that is finite and nonzero at every ambiguous
gene, the E-step weight of gene `k` is the number of distinct ambiguous
(read, gene) rows carrying `k` — independent of the abundances. -/
theorem nJ_eq_cntQ {reads classifications : List String} {a : Series}
    (h : posOnAmb reads classifications a) (k : String) :
    nJ reads classifications a k = cntQ reads classifications k := by
  rw [nJ, cntQ, pairCount, ← List.length_map _
    (fun r => PFloat.div (lookupPF a k)
      (.fin (pRow reads classifications a r.idx)))]
  apply skipnaSum_eq_length
  intro v hv
  rcases List.mem_map.mp hv with ⟨r, hrf, rfl⟩
  have hrmem : r ∈ ambRows reads classifications := (List.mem_filter.mp hrf).1
  have hrg : r.gene = k := by
    have := (List.mem_filter.mp hrf).2
    rwa [beq_iff_eq] at this
  obtain ⟨q, hq, hq0⟩ := h r hrmem
  rw [← hrg, pRow_of_mem hrmem, hq, skipnaSum_cons_fin, skipnaSum_nil, add_zero,
    PFloat.div, if_neg hq0, div_self hq0]

theorem posOnAmb_init {reads classifications : List String}
    (hamb : ambRows reads classifications ≠ []) :
    posOnAmb reads classifications (initAbundance classifications) := by
  intro r hr
  refine ⟨1 / ((catUniverse classifications).length : ℚ), ?_, ?_⟩
  · rw [initAbundance, lookupPF_map_of_mem (mem_ambRows_gene hr)]
  · have hg : catUniverse classifications ≠ [] := catUniverse_ne_nil hamb
    have hlen : 0 < (catUniverse classifications).length :=
      List.length_pos.mpr hg
    positivity

/-! ## Arithmetic lemmas about the maximization chain -/

theorem PFloat.add_fin (a b : ℚ) :
    PFloat.add (.fin a) (.fin b) = .fin (a + b) := rfl

theorem PFloat.mul_fin (a b : ℚ) :
    PFloat.mul (.fin a) (.fin b) = .fin (a * b) := rfl

theorem PFloat.sub_fin (a b : ℚ) :
    PFloat.sub (.fin a) (.fin b) = .fin (a - b) := rfl

theorem PFloat.div_fin {b : ℚ} (hb : b ≠ 0) (a : ℚ) :
    PFloat.div (.fin a) (.fin b) = .fin (a / b) := by
  rw [PFloat.div, if_neg hb]

theorem PFloat.ltQ_fin_zero {q : ℚ} (h : 0 ≤ q) :
    (PFloat.fin q).ltQ 0 = false := by
  simp [PFloat.ltQ, not_lt.mpr h]

theorem list_sum_map_div {α : Type} (l : List α) (f : α → ℚ) (c : ℚ) :
    (l.map (fun x => f x / c)).sum = (l.map f).sum / c := by
  induction l with
  | nil => simp
  | cons x xs ih => simp [ih, add_div]

theorem sumUnique_eq (reads classifications : List String) :
    sumUnique reads classifications =
      ((catUniverse classifications).map
        (uniqueGenesVal reads classifications)).sum := by
  rw [sumUnique, uniqueGenes, List.map_map]
  exact skipnaSum_map_eq_sum (fun k _ => rfl)

theorem sumUnique_nonneg (reads classifications : List String) :
    0 ≤ sumUnique reads classifications := by
  rw [sumUnique_eq]
  apply List.sum_nonneg
  intro x hx
  rcases List.mem_map.mp hx with ⟨k, _, rfl⟩
  exact Nat.cast_nonneg _

theorem cntQ_nonneg (reads classifications : List String) (k : String) :
    0 ≤ cntQ reads classifications k :=
  Nat.cast_nonneg _

theorem cntQ_pos_of_mem {reads classifications : List String} {r : EMRow}
    (hr : r ∈ ambRows reads classifications) :
    0 < cntQ reads classifications r.gene := by
  rw [cntQ, pairCount]
  have hmem : r ∈ (ambRows reads classifications).filter
      (fun s => s.gene == r.gene) :=
    List.mem_filter.mpr ⟨hr, by simp⟩
  exact_mod_cast List.length_pos.mpr (fun hnil => by rw [hnil] at hmem; cases hmem)

theorem emS1_cnt_eq (reads classifications : List String) :
    emS1 reads classifications (cntQ reads classifications) =
      ((catUniverse classifications).map (cntQ reads classifications)).sum :=
  skipnaSum_map_eq_sum (fun k _ => rfl)

theorem emS1_cnt_pos {reads classifications : List String}
    (hamb : ambRows reads classifications ≠ []) :
    0 < emS1 reads classifications (cntQ reads classifications) := by
  rw [emS1_cnt_eq]
  obtain ⟨r, hr⟩ := List.exists_mem_of_ne_nil _ hamb
  calc (0 : ℚ) < cntQ reads classifications r.gene := cntQ_pos_of_mem hr
    _ ≤ _ := List.single_le_sum
      (fun x hx => by
        rcases List.mem_map.mp hx with ⟨k, _, rfl⟩
        exact cntQ_nonneg _ _ _) _
      (List.mem_map.mpr ⟨r.gene, mem_ambRows_gene hr, rfl⟩)

/-- The value of the abundance after the maximization step, in exact
arithmetic (valid when no denominator vanishes). -/
def q2 (reads classifications : List String) (nj : String → ℚ)
    (k : String) : ℚ :=
  ((nj k / emS1 reads classifications nj) * (nAmbiguous reads classifications : ℚ)
    + (uniqueGenesVal reads classifications k / sumUnique reads classifications)
      * (nUnique reads classifications : ℚ))
    / ((nAmbiguous reads classifications : ℚ) + (nUnique reads classifications : ℚ))

theorem emAj2_eq_fin {reads classifications : List String} {nj : String → ℚ}
    (hs1 : emS1 reads classifications nj ≠ 0)
    (hsu : sumUnique reads classifications ≠ 0)
    (hnn : (nAmbiguous reads classifications : ℚ)
      + (nUnique reads classifications : ℚ) ≠ 0) (k : String) :
    emAj2 reads classifications nj k = .fin (q2 reads classifications nj k) := by
  rw [emAj2, PFloat.div_fin hs1, PFloat.div_fin hsu, PFloat.mul_fin,
    PFloat.mul_fin, PFloat.add_fin, PFloat.div_fin hnn, q2]

/-! ## The all-NaN collapse when there are no unique reads -/

theorem emAj2_nan_of_su0 {reads classifications : List String}
    (hsu : sumUnique reads classifications = 0) (nj : String → ℚ) (k : String) :
    emAj2 reads classifications nj k = .nan := by
  rw [emAj2, hsu, PFloat.div_zero_right,
    show PFloat.mul .nan (.fin (nUnique reads classifications : ℚ)) = .nan from rfl,
    PFloat.add_nan, PFloat.div_nan_left]

theorem emStepFrom_nan_of_su0 {reads classifications : List String}
    (hsu : sumUnique reads classifications = 0) (nt : ℚ) (nj : String → ℚ)
    (k : String) :
    emStepFrom reads classifications nt nj k = .nan := by
  have h3 : emAj3 reads classifications nj k = .nan := by
    rw [emAj3, emAj2_nan_of_su0 hsu, PFloat.div_nan_left]
  have h4 : emAj4 reads classifications nt nj k = .nan := by
    rw [emAj4, h3]
    simp [PFloat.ltQ]
  show PFloat.div (emAj4 reads classifications nt nj k) _ = _
  rw [h4, PFloat.div_nan_left]

theorem emStep_snd_zero_of_su0 {reads classifications : List String}
    (hsu : sumUnique reads classifications = 0) (nt : ℚ) (a : Series) :
    (emStep reads classifications nt a).2 = 0 := by
  show skipnaSum _ = 0
  apply skipnaSum_eq_zero
  intro v hv
  rcases List.mem_map.mp hv with ⟨k, _, rfl⟩
  rw [emStepFrom_nan_of_su0 hsu, PFloat.nan_sub]
  right
  rfl

theorem emStep_fst_nan_of_su0 {reads classifications : List String}
    (hsu : sumUnique reads classifications = 0) (nt : ℚ) (a : Series) :
    (emStep reads classifications nt a).1 =
      (catUniverse classifications).map (fun k => (k, PFloat.nan)) := by
  show List.map _ _ = _
  exact List.map_congr_left (fun k _ => by rw [emStepFrom_nan_of_su0 hsu])

/-! ## The fixed point of the degenerate iteration (unique reads present) -/

/-- The abundance produced by the first pass of the loop — and, as proved
below, by every later pass when `noise_threshold = 0`. -/
def emFix (reads classifications : List String) : Series :=
  (emStep reads classifications 0 (initAbundance classifications)).1

/-- The total post-maximization mass `Σ_g q2(g)` for the constant E-step
weights. -/
def q2sum (reads classifications : List String) : ℚ :=
  ((catUniverse classifications).map
    (q2 reads classifications (cntQ reads classifications))).sum

theorem emStep_fst_congr {reads classifications : List String} {a b : Series}
    (h : nJ reads classifications a = nJ reads classifications b) (nt : ℚ) :
    (emStep reads classifications nt a).1 = (emStep reads classifications nt b).1 := by
  show List.map _ _ = List.map _ _
  rw [h]

theorem emStep_snd_eq_zero {reads classifications : List String} {nt : ℚ}
    {a : Series}
    (h : ∀ k ∈ catUniverse classifications,
      emStepFrom reads classifications nt (nJ reads classifications a) k
        = lookupPF a k) :
    (emStep reads classifications nt a).2 = 0 := by
  show skipnaSum _ = 0
  apply skipnaSum_eq_zero
  intro v hv
  rcases List.mem_map.mp hv with ⟨k, hk, rfl⟩
  rw [h k hk]
  exact PFloat.sub_self_abs _

theorem emStep_fst_map_fst (reads classifications : List String) (nt : ℚ)
    (a : Series) :
    ((emStep reads classifications nt a).1.map Prod.fst)
      = catUniverse classifications := by
  show (List.map _ _).map _ = _
  rw [List.map_map]
  exact List.map_id' _

section FixedPoint

variable {reads classifications : List String}

theorem q2_cnt_nonneg (hamb : ambRows reads classifications ≠ [])
    (hsu : 0 < sumUnique reads classifications) (k : String) :
    0 ≤ q2 reads classifications (cntQ reads classifications) k := by
  have hs1 := emS1_cnt_pos hamb
  have hna : (0 : ℚ) ≤ (nAmbiguous reads classifications : ℚ) := Nat.cast_nonneg _
  have hnu : (0 : ℚ) ≤ (nUnique reads classifications : ℚ) := Nat.cast_nonneg _
  apply div_nonneg
  · exact add_nonneg
      (mul_nonneg (div_nonneg (cntQ_nonneg _ _ _) hs1.le) hna)
      (mul_nonneg (div_nonneg (Nat.cast_nonneg _) hsu.le) hnu)
  · exact add_nonneg hna hnu

theorem q2_cnt_pos_of_mem (hamb : ambRows reads classifications ≠ [])
    (hsu : 0 < sumUnique reads classifications) {r : EMRow}
    (hr : r ∈ ambRows reads classifications) :
    0 < q2 reads classifications (cntQ reads classifications) r.gene := by
  have hna : (0 : ℚ) < (nAmbiguous reads classifications : ℚ) := by
    exact_mod_cast nAmbiguous_pos hamb
  have h1 : 0 < (cntQ reads classifications r.gene
      / emS1 reads classifications (cntQ reads classifications))
      * (nAmbiguous reads classifications : ℚ) :=
    mul_pos (div_pos (cntQ_pos_of_mem hr) (emS1_cnt_pos hamb)) hna
  have h2 : 0 ≤ (uniqueGenesVal reads classifications r.gene
      / sumUnique reads classifications)
      * (nUnique reads classifications : ℚ) :=
    mul_nonneg (div_nonneg (Nat.cast_nonneg _) hsu.le) (Nat.cast_nonneg _)
  exact div_pos (add_pos_of_pos_of_nonneg h1 h2)
    (add_pos_of_pos_of_nonneg hna (Nat.cast_nonneg _))

theorem q2sum_pos (hamb : ambRows reads classifications ≠ [])
    (hsu : 0 < sumUnique reads classifications) :
    0 < q2sum reads classifications := by
  obtain ⟨r, hr⟩ := List.exists_mem_of_ne_nil _ hamb
  rw [q2sum]
  calc (0 : ℚ) < q2 reads classifications (cntQ reads classifications) r.gene :=
      q2_cnt_pos_of_mem hamb hsu hr
    _ ≤ _ := List.single_le_sum
      (fun x hx => by
        rcases List.mem_map.mp hx with ⟨k, _, rfl⟩
        exact q2_cnt_nonneg hamb hsu k) _
      (List.mem_map.mpr ⟨r.gene, mem_ambRows_gene hr, rfl⟩)

theorem emAj4_cnt_eq (hamb : ambRows reads classifications ≠ [])
    (hsu : 0 < sumUnique reads classifications) (k : String) :
    emAj4 reads classifications 0 (cntQ reads classifications) k
      = .fin (q2 reads classifications (cntQ reads classifications) k
          / q2sum reads classifications) := by
  have hs1 : emS1 reads classifications (cntQ reads classifications) ≠ 0 :=
    (emS1_cnt_pos hamb).ne'
  have hna : (0 : ℚ) < (nAmbiguous reads classifications : ℚ) := by
    exact_mod_cast nAmbiguous_pos hamb
  have hnn : (nAmbiguous reads classifications : ℚ)
      + (nUnique reads classifications : ℚ) ≠ 0 :=
    (add_pos_of_pos_of_nonneg hna (Nat.cast_nonneg _)).ne'
  have hS2 : emS2 reads classifications (cntQ reads classifications)
      = q2sum reads classifications :=
    skipnaSum_map_eq_sum (fun k _ => emAj2_eq_fin hs1 hsu.ne' hnn k)
  have h3 : emAj3 reads classifications (cntQ reads classifications) k
      = .fin (q2 reads classifications (cntQ reads classifications) k
          / q2sum reads classifications) := by
    rw [emAj3, hS2, emAj2_eq_fin hs1 hsu.ne' hnn,
      PFloat.div_fin (q2sum_pos hamb hsu).ne']
  rw [emAj4, h3, PFloat.ltQ_fin_zero
    (div_nonneg (q2_cnt_nonneg hamb hsu k) (q2sum_pos hamb hsu).le),
    if_neg Bool.false_ne_true]

theorem emStepFrom_cnt_eq (hamb : ambRows reads classifications ≠ [])
    (hsu : 0 < sumUnique reads classifications) (k : String) :
    emStepFrom reads classifications 0 (cntQ reads classifications) k
      = .fin (q2 reads classifications (cntQ reads classifications) k
          / q2sum reads classifications) := by
  have hS4 : emS4 reads classifications 0 (cntQ reads classifications) = 1 := by
    rw [emS4, skipnaSum_map_eq_sum (fun k _ => emAj4_cnt_eq hamb hsu k),
      list_sum_map_div]
    exact div_self (q2sum_pos hamb hsu).ne'
  show PFloat.div (emAj4 reads classifications 0 (cntQ reads classifications) k)
    (.fin (emS4 reads classifications 0 (cntQ reads classifications))) = _
  rw [emAj4_cnt_eq hamb hsu k, hS4, PFloat.div_fin one_ne_zero, div_one]

theorem emFix_eq (hamb : ambRows reads classifications ≠ [])
    (hsu : 0 < sumUnique reads classifications) :
    emFix reads classifications = (catUniverse classifications).map
      (fun k => (k, PFloat.fin (q2 reads classifications
        (cntQ reads classifications) k / q2sum reads classifications))) := by
  rw [emFix]
  show List.map _ _ = _
  refine List.map_congr_left (fun k _ => ?_)
  have hnj : nJ reads classifications (initAbundance classifications)
      = cntQ reads classifications :=
    funext (nJ_eq_cntQ (posOnAmb_init hamb))
  rw [hnj, emStepFrom_cnt_eq hamb hsu]

theorem posOnAmb_emFix (hamb : ambRows reads classifications ≠ [])
    (hsu : 0 < sumUnique reads classifications) :
    posOnAmb reads classifications (emFix reads classifications) := by
  intro r hr
  rw [emFix_eq hamb hsu, lookupPF_map_of_mem (mem_ambRows_gene hr)]
  exact ⟨_, rfl,
    (div_pos (q2_cnt_pos_of_mem hamb hsu hr) (q2sum_pos hamb hsu)).ne'⟩

theorem nJ_emFix (hamb : ambRows reads classifications ≠ [])
    (hsu : 0 < sumUnique reads classifications) :
    nJ reads classifications (emFix reads classifications)
      = cntQ reads classifications :=
  funext (nJ_eq_cntQ (posOnAmb_emFix hamb hsu))

theorem emStep_emFix_fst (hamb : ambRows reads classifications ≠ [])
    (hsu : 0 < sumUnique reads classifications) :
    (emStep reads classifications 0 (emFix reads classifications)).1
      = emFix reads classifications := by
  have h : nJ reads classifications (emFix reads classifications)
      = nJ reads classifications (initAbundance classifications) := by
    rw [nJ_emFix hamb hsu, funext (nJ_eq_cntQ (posOnAmb_init hamb))]
  rw [emStep_fst_congr h 0]
  rfl

theorem emStep_emFix_snd (hamb : ambRows reads classifications ≠ [])
    (hsu : 0 < sumUnique reads classifications) :
    (emStep reads classifications 0 (emFix reads classifications)).2 = 0 := by
  apply emStep_snd_eq_zero
  intro k hk
  rw [nJ_emFix hamb hsu, emStepFrom_cnt_eq hamb hsu,
    emFix_eq hamb hsu, lookupPF_map_of_mem hk]

theorem totalMass_emFix (hamb : ambRows reads classifications ≠ [])
    (hsu : 0 < sumUnique reads classifications) :
    totalMass (emFix reads classifications) = .fin 1 := by
  rw [emFix_eq hamb hsu, totalMass_map_fin (fun k _ => rfl),
    list_sum_map_div]
  rw [show ((catUniverse classifications).map
      (q2 reads classifications (cntQ reads classifications))).sum
    = q2sum reads classifications from rfl]
  rw [div_self (q2sum_pos hamb hsu).ne']

end FixedPoint

/-! ## Lemmas about the iteration loop -/

section LoopLemmas

variable {reads classifications : List String} {nt md : ℚ} {mi : ℕ} {vb : Bool}

theorem emLoop_ok_inv :
    ∀ (fuel : ℕ) (a : Series) (d ns : ℕ) (s : Series) (n : ℕ) (delta : ℚ),
      ns ≤ mi →
      emLoop reads classifications nt mi md vb fuel a d ns = .ok (s, n, delta) →
      (delta ≤ md ∨ mi ≤ n) ∧ ns ≤ n ∧ n ≤ mi := by
  intro fuel
  induction fuel with
  | zero =>
    intro a d ns s n delta _ h
    exact absurd h (by simp [emLoop])
  | succ fuel ih =>
    intro a d ns s n delta hns h
    rw [emLoop] at h
    by_cases hbr : (emStep reads classifications nt a).2 ≤ md ∨ ns ≥ mi
    · rw [if_pos hbr] at h
      simp only [Except.ok.injEq, Prod.mk.injEq] at h
      obtain ⟨-, hn, hd⟩ := h
      subst hn
      subst hd
      exact ⟨hbr, le_refl _, hns⟩
    · rw [if_neg hbr] at h
      by_cases h0 : (emStep reads classifications nt a).2 = 0
      · rw [if_pos h0] at h; simp at h
      · rw [if_neg h0] at h
        by_cases hv : (vb && (mi / 100 == 0)) = true
        · rw [if_pos hv] at h; simp at h
        · rw [if_neg hv] at h
          have hlt : ns < mi := by
            by_contra hge
            exact hbr (Or.inr (not_lt.mp hge))
          obtain ⟨h1, h2, h3⟩ := ih _ _ _ _ _ _ (by omega) h
          exact ⟨h1, by omega, h3⟩

theorem emLoop_ne_fuelExhausted :
    ∀ (fuel : ℕ) (a : Series) (d ns : ℕ), ns ≤ mi → mi < ns + fuel →
      emLoop reads classifications nt mi md vb fuel a d ns
        ≠ .error .fuelExhausted := by
  intro fuel
  induction fuel with
  | zero =>
    intro a d ns hns hlt _
    omega
  | succ fuel ih =>
    intro a d ns hns hlt
    rw [emLoop]
    by_cases hbr : (emStep reads classifications nt a).2 ≤ md ∨ ns ≥ mi
    · rw [if_pos hbr]
      exact fun hh => Except.noConfusion hh
    · rw [if_neg hbr]
      by_cases h0 : (emStep reads classifications nt a).2 = 0
      · rw [if_pos h0]
        exact fun hh => EMError.noConfusion (Except.error.inj hh)
      · rw [if_neg h0]
        by_cases hv : (vb && (mi / 100 == 0)) = true
        · rw [if_pos hv]
          exact fun hh => EMError.noConfusion (Except.error.inj hh)
        · rw [if_neg hv]
          have hlt2 : ns < mi := by
            by_contra hge
            exact hbr (Or.inr (not_lt.mp hge))
          exact ih _ _ _ (by omega) (by omega)

theorem emLoop_ok_keys :
    ∀ (fuel : ℕ) (a : Series) (d ns : ℕ) (s : Series) (n : ℕ) (delta : ℚ),
      emLoop reads classifications nt mi md vb fuel a d ns = .ok (s, n, delta) →
      s.map Prod.fst = catUniverse classifications := by
  intro fuel
  induction fuel with
  | zero =>
    intro a d ns s n delta h
    exact absurd h (by simp [emLoop])
  | succ fuel ih =>
    intro a d ns s n delta h
    rw [emLoop] at h
    by_cases hbr : (emStep reads classifications nt a).2 ≤ md ∨ ns ≥ mi
    · rw [if_pos hbr] at h
      simp only [Except.ok.injEq, Prod.mk.injEq] at h
      obtain ⟨hs, -, -⟩ := h
      rw [← hs]
      exact emStep_fst_map_fst reads classifications nt a
    · rw [if_neg hbr] at h
      by_cases h0 : (emStep reads classifications nt a).2 = 0
      · rw [if_pos h0] at h; simp at h
      · rw [if_neg h0] at h
        by_cases hv : (vb && (mi / 100 == 0)) = true
        · rw [if_pos hv] at h; simp at h
        · rw [if_neg hv] at h
          exact ih _ _ _ _ _ _ h

theorem emLoop_ok_fix {A : Series}
    (hfix : (emStep reads classifications nt A).1 = A) :
    ∀ (fuel : ℕ) (a : Series) (d ns : ℕ) (s : Series) (n : ℕ) (delta : ℚ),
      (emStep reads classifications nt a).1 = A →
      emLoop reads classifications nt mi md vb fuel a d ns = .ok (s, n, delta) →
      s = A := by
  intro fuel
  induction fuel with
  | zero =>
    intro a d ns s n delta _ h
    exact absurd h (by simp [emLoop])
  | succ fuel ih =>
    intro a d ns s n delta ha h
    rw [emLoop] at h
    by_cases hbr : (emStep reads classifications nt a).2 ≤ md ∨ ns ≥ mi
    · rw [if_pos hbr] at h
      simp only [Except.ok.injEq, Prod.mk.injEq] at h
      obtain ⟨hs, -, -⟩ := h
      rw [← hs, ha]
    · rw [if_neg hbr] at h
      by_cases h0 : (emStep reads classifications nt a).2 = 0
      · rw [if_pos h0] at h; simp at h
      · rw [if_neg h0] at h
        by_cases hv : (vb && (mi / 100 == 0)) = true
        · rw [if_pos hv] at h; simp at h
        · rw [if_neg hv] at h
          exact ih _ _ _ _ _ _ (ha ▸ hfix) h

end LoopLemmas

/-! ## Run-level consequences -/

theorem uniqueGenes_map_fst (reads classifications : List String) :
    (uniqueGenes reads classifications).map Prod.fst
      = catUniverse classifications := by
  rw [uniqueGenes, List.map_map]
  exact List.map_id' _

section RunLemmas

variable {reads classifications : List String} {nt md : ℚ} {mi : ℕ} {vb : Bool}

theorem em_full_not_short {s : Series} {n : ℕ} {delta : ℚ}
    (hok : expectation_maximization_full reads classifications nt mi md vb
      = .ok (s, n, some delta)) :
    emLoop reads classifications nt mi md vb (mi + 1)
      (initAbundance classifications) 0 0 = .ok (s, n, delta) := by
  rw [expectation_maximization_full] at hok
  by_cases hg : (catUniverse classifications).isEmpty = true
  · rw [if_pos hg] at hok; simp at hok
  · rw [if_neg hg] at hok
    by_cases ha : (ambRows reads classifications).isEmpty = true
    · rw [if_pos ha] at hok; simp at hok
    · rw [if_neg ha] at hok
      cases hL : emLoop reads classifications nt mi md vb (mi + 1)
          (initAbundance classifications) 0 0 with
      | error e => rw [hL] at hok; simp at hok
      | ok t =>
        obtain ⟨s2, n2, d2⟩ := t
        rw [hL] at hok
        simp only [Except.ok.injEq, Prod.mk.injEq, Option.some.injEq] at hok
        obtain ⟨hs, hn, hd⟩ := hok
        rw [hs, hn, hd]

theorem em_ok_of_full {s : Series} {n : ℕ}
    (hok : expectation_maximization reads classifications nt mi md vb
      = .ok (s, n)) :
    ∃ dopt, expectation_maximization_full reads classifications nt mi md vb
      = .ok (s, n, dopt) := by
  rw [expectation_maximization] at hok
  cases hF : expectation_maximization_full reads classifications nt mi md vb with
  | error e => rw [hF] at hok; simp [Except.map] at hok
  | ok t =>
    obtain ⟨s2, n2, d2⟩ := t
    rw [hF] at hok
    simp only [Except.map, Except.ok.injEq, Prod.mk.injEq] at hok
    obtain ⟨hs, hn⟩ := hok
    rw [← hs, ← hn]
    exact ⟨d2, rfl⟩

theorem em_full_ok_dopt {s : Series} {n : ℕ} {dopt : Option ℚ}
    (hamb : ambRows reads classifications ≠ [])
    (hok : expectation_maximization_full reads classifications nt mi md vb
      = .ok (s, n, dopt)) :
    ∃ delta, dopt = some delta := by
  rw [expectation_maximization_full] at hok
  by_cases hg : (catUniverse classifications).isEmpty = true
  · rw [if_pos hg] at hok; simp at hok
  · rw [if_neg hg] at hok
    have ha : ¬((ambRows reads classifications).isEmpty = true) :=
      fun hh => hamb (List.isEmpty_iff.mp hh)
    rw [if_neg ha] at hok
    cases hL : emLoop reads classifications nt mi md vb (mi + 1)
        (initAbundance classifications) 0 0 with
    | error e => rw [hL] at hok; simp at hok
    | ok t =>
      obtain ⟨s2, n2, d2⟩ := t
      rw [hL] at hok
      simp only [Except.ok.injEq, Prod.mk.injEq] at hok
      exact ⟨d2, hok.2.2.symm⟩

end RunLemmas

section NLeOne

variable {reads classifications : List String} {md : ℚ} {mi : ℕ} {vb : Bool}

/-- With `noise_threshold = 0` the loop reaches a fixed point after one
pass, so a normal return reports at most one iteration. -/
theorem em_full_n_le_one (hamb : ambRows reads classifications ≠ [])
    (hmi : 1 ≤ mi) {s : Series} {n : ℕ} {dopt : Option ℚ}
    (hok : expectation_maximization_full reads classifications 0 mi md vb
      = .ok (s, n, dopt)) :
    n ≤ 1 := by
  obtain ⟨delta, rfl⟩ := em_full_ok_dopt hamb hok
  have hL := em_full_not_short hok
  rw [emLoop] at hL
  by_cases hbr0 : (emStep reads classifications 0
      (initAbundance classifications)).2 ≤ md ∨ 0 ≥ mi
  · rw [if_pos hbr0] at hL
    simp only [Except.ok.injEq, Prod.mk.injEq] at hL
    obtain ⟨-, hn, -⟩ := hL
    omega
  · rw [if_neg hbr0] at hL
    by_cases h00 : (emStep reads classifications 0
        (initAbundance classifications)).2 = 0
    · rw [if_pos h00] at hL; simp at hL
    · rw [if_neg h00] at hL
      by_cases hv0 : (vb && (mi / 100 == 0)) = true
      · rw [if_pos hv0] at hL; simp at hL
      · rw [if_neg hv0] at hL
        by_cases hsu0 : sumUnique reads classifications = 0
        · exact absurd (emStep_snd_zero_of_su0 hsu0 0 _) h00
        · have hsu : 0 < sumUnique reads classifications :=
            lt_of_le_of_ne (sumUnique_nonneg _ _) (Ne.symm hsu0)
          rw [show (emStep reads classifications 0
              (initAbundance classifications)).1
              = emFix reads classifications from rfl] at hL
          obtain ⟨m, rfl⟩ : ∃ m, mi = m + 1 := ⟨mi - 1, by omega⟩
          rw [emLoop] at hL
          by_cases hbr1 : (emStep reads classifications 0
              (emFix reads classifications)).2 ≤ md ∨ 0 + 1 ≥ m + 1
          · rw [if_pos hbr1] at hL
            simp only [Except.ok.injEq, Prod.mk.injEq] at hL
            obtain ⟨-, hn, -⟩ := hL
            omega
          · rw [if_neg hbr1] at hL
            rw [if_pos (emStep_emFix_snd hamb hsu)] at hL
            simp at hL

theorem em_n_le_one (hamb : ambRows reads classifications ≠ [])
    (hmi : 1 ≤ mi) {s : Series} {n : ℕ}
    (hok : expectation_maximization reads classifications 0 mi md vb
      = .ok (s, n)) :
    n ≤ 1 := by
  obtain ⟨dopt, hfull⟩ := em_ok_of_full hok
  exact em_full_n_le_one hamb hmi hfull

end NLeOne

section MoreRunLemmas

variable {reads classifications : List String} {nt md : ℚ} {mi : ℕ} {vb : Bool}

/-- With `noise_threshold = 0`, the second pass reproduces the abundance of
the first pass exactly: the iteration is constant after one step. -/
theorem emStep_iterate_fixed (hamb : ambRows reads classifications ≠ []) :
    (emStep reads classifications 0
      (emStep reads classifications 0 (initAbundance classifications)).1).1
      = (emStep reads classifications 0 (initAbundance classifications)).1 := by
  by_cases hsu0 : sumUnique reads classifications = 0
  · rw [emStep_fst_nan_of_su0 hsu0 0, emStep_fst_nan_of_su0 hsu0 0]
  · have hsu : 0 < sumUnique reads classifications :=
      lt_of_le_of_ne (sumUnique_nonneg _ _) (Ne.symm hsu0)
    exact emStep_emFix_fst hamb hsu

theorem em_result_eq_emFix (hamb : ambRows reads classifications ≠ [])
    (hsu : 0 < sumUnique reads classifications) {s : Series} {n : ℕ}
    (hok : expectation_maximization reads classifications 0 mi md vb
      = .ok (s, n)) :
    s = emFix reads classifications := by
  obtain ⟨dopt, hfull⟩ := em_ok_of_full hok
  obtain ⟨delta, rfl⟩ := em_full_ok_dopt hamb hfull
  have hL := em_full_not_short hfull
  exact emLoop_ok_fix (emStep_emFix_fst hamb hsu) _ _ _ _ _ _ _ rfl hL

theorem em_full_keys {s : Series} {n : ℕ} {dopt : Option ℚ}
    (hok : expectation_maximization_full reads classifications nt mi md vb
      = .ok (s, n, dopt)) :
    s.map Prod.fst = catUniverse classifications := by
  rw [expectation_maximization_full] at hok
  by_cases hg : (catUniverse classifications).isEmpty = true
  · rw [if_pos hg] at hok; simp at hok
  · rw [if_neg hg] at hok
    by_cases ha : (ambRows reads classifications).isEmpty = true
    · rw [if_pos ha] at hok
      simp only [Except.ok.injEq, Prod.mk.injEq] at hok
      obtain ⟨hs, -⟩ := hok
      rw [← hs]
      exact uniqueGenes_map_fst _ _
    · rw [if_neg ha] at hok
      cases hL : emLoop reads classifications nt mi md vb (mi + 1)
          (initAbundance classifications) 0 0 with
      | error e => rw [hL] at hok; simp at hok
      | ok t =>
        obtain ⟨s2, n2, d2⟩ := t
        rw [hL] at hok
        simp only [Except.ok.injEq, Prod.mk.injEq] at hok
        obtain ⟨hs, -, -⟩ := hok
        rw [← hs]
        exact emLoop_ok_keys _ _ _ _ _ _ _ hL

theorem em_full_ne_fuelExhausted :
    expectation_maximization_full reads classifications nt mi md vb
      ≠ .error .fuelExhausted := by
  rw [expectation_maximization_full]
  by_cases hg : (catUniverse classifications).isEmpty = true
  · rw [if_pos hg]
    exact fun hh => EMError.noConfusion (Except.error.inj hh)
  · rw [if_neg hg]
    by_cases ha : (ambRows reads classifications).isEmpty = true
    · rw [if_pos ha]
      exact fun hh => Except.noConfusion hh
    · rw [if_neg ha]
      cases hL : emLoop reads classifications nt mi md vb (mi + 1)
          (initAbundance classifications) 0 0 with
      | error e =>
        intro hh
        have he : e = .fuelExhausted := Except.error.inj hh
        exact emLoop_ne_fuelExhausted _ _ _ _ (Nat.zero_le _) (by omega)
          (he ▸ hL)
      | ok t =>
        obtain ⟨s2, n2, d2⟩ := t
        exact fun hh => Except.noConfusion hh

theorem em_full_break_char {s : Series} {n : ℕ} {delta : ℚ}
    (hok : expectation_maximization_full reads classifications nt mi md vb
      = .ok (s, n, some delta)) :
    (delta ≤ md ∨ mi ≤ n) ∧ n ≤ mi := by
  have hL := em_full_not_short hok
  obtain ⟨h1, -, h3⟩ := emLoop_ok_inv _ _ _ _ _ _ _ (Nat.zero_le _) hL
  exact ⟨h1, h3⟩

end MoreRunLemmas

/-! ## The all-unique short-circuit -/

section ShortCircuit

variable {reads classifications : List String} {nt md : ℚ} {mi : ℕ} {vb : Bool}

theorem map_gene_nodup_of_pairs_nodup {l : List EMRow}
    (h : (l.map (fun r => (r.read, r.gene))).Nodup) (r : String) :
    ((l.filter (fun row => row.read == r)).map (fun row => row.gene)).Nodup := by
  induction l with
  | nil => simp
  | cons x xs ih =>
    rw [List.map_cons, List.nodup_cons] at h
    by_cases hx : (x.read == r) = true
    · rw [List.filter_cons, if_pos hx, List.map_cons, List.nodup_cons]
      refine ⟨fun hm => ?_, ih h.2⟩
      rcases List.mem_map.mp hm with ⟨s, hsf, hg⟩
      have hsx : s ∈ xs := (List.mem_filter.mp hsf).1
      have hsr : s.read = r := by
        have := (List.mem_filter.mp hsf).2
        rwa [beq_iff_eq] at this
      have hxr : x.read = r := by rwa [beq_iff_eq] at hx
      exact h.1 (List.mem_map.mpr ⟨s, hsx, by simp [Prod.ext_iff, hsr, hxr, hg]⟩)
    · rw [List.filter_cons, if_neg hx]
      exact ih h.2

theorem readCats_length (reads classifications : List String) (r : String) :
    (readCats reads classifications r).length
      = hitCount reads classifications r := by
  rw [readCats, uniqueKeys_of_nodup
    (map_gene_nodup_of_pairs_nodup (dfRows_pairs_nodup reads classifications) r),
    List.length_map, hitCount]

theorem ambRows_nil_of_all_unique
    (huniq : ∀ r ∈ reads, (readCats reads classifications r).length = 1) :
    ambRows reads classifications = [] := by
  rw [ambRows, List.filter_eq_nil_iff]
  intro row hrow
  have h1 : hitCount reads classifications row.read = 1 := by
    rw [← readCats_length]
    exact huniq row.read (mem_dfRows_read hrow)
  simp [isUniqueRead, h1]

theorem em_short_circuit (hg : classifications ≠ [])
    (hA : ambRows reads classifications = []) :
    expectation_maximization reads classifications nt mi md vb
      = .ok (uniqueGenes reads classifications, 1) := by
  rw [expectation_maximization, expectation_maximization_full]
  have hgne : ¬((catUniverse classifications).isEmpty = true) :=
    fun hh => uniqueKeys_ne_nil hg (List.isEmpty_iff.mp hh)
  have haye : (ambRows reads classifications).isEmpty = true := by
    rw [hA]; rfl
  rw [if_neg hgne, if_pos haye]
  rfl

theorem uniqueGenesVal_of_all_unique
    (huniq : ∀ r ∈ reads, (readCats reads classifications r).length = 1)
    (k : String) :
    uniqueGenesVal reads classifications k =
      (((dfRows reads classifications).filter
        (fun row => row.gene == k)).length : ℚ) := by
  rw [uniqueGenesVal]
  congr 2
  apply List.filter_congr
  intro row hrow
  have h1 : isUniqueRead reads classifications row.read = true := by
    rw [isUniqueRead, ← readCats_length]
    simp [huniq row.read (mem_dfRows_read hrow)]
  rw [h1]
  simp

end ShortCircuit

/-! ## The specification's E/M step, for comparison with the code -/

/-- Modelled from the spec: the distinct ambiguous read identifiers. -/
def specAmbReads (reads classifications : List String) : List String :=
  uniqueKeys ((ambRows reads classifications).map (fun r => r.read))

/-- Modelled from the spec: the candidate category set `C_r` of an
ambiguous read `r`. -/
def specCandidates (reads classifications : List String) (r : String) :
    List String :=
  uniqueKeys (((ambRows reads classifications).filter
    (fun row => row.read == r)).map (fun row => row.gene))

/-- Modelled from the spec: the E-step total weight of an ambiguous read,
`p_r = Σ_{g ∈ C_r} a[g]`. -/
def specP (reads classifications : List String) (a : String → ℚ)
    (r : String) : ℚ :=
  ((specCandidates reads classifications r).map a).sum

/-- Modelled from the spec: the E-step mass
`n[g] = Σ_{r : g ∈ C_r} a[g] / p_r` (each ambiguous read distributes one
unit of mass across its candidate categories, proportional to the current
abundance). -/
def specN (reads classifications : List String) (a : String → ℚ)
    (k : String) : ℚ :=
  (((specAmbReads reads classifications).filter
    (fun r => (specCandidates reads classifications r).contains k)).map
    (fun r => a k / specP reads classifications a r)).sum

/-- Modelled from the spec: the M-step before renormalization,
`a_new[g] = ((n[g]/Σn) * n_ambiguous
+ (unique_counts[g]/Σunique_counts) * n_unique) / (n_ambiguous + n_unique)`. -/
def specMRaw (reads classifications : List String) (a : String → ℚ)
    (k : String) : ℚ :=
  ((specN reads classifications a k
      / ((catUniverse classifications).map (specN reads classifications a)).sum)
      * (nAmbiguous reads classifications : ℚ)
    + (uniqueGenesVal reads classifications k / sumUnique reads classifications)
      * (nUnique reads classifications : ℚ))
    / ((nAmbiguous reads classifications : ℚ)
      + (nUnique reads classifications : ℚ))

/-- Modelled from the spec: the M-step, renormalized to sum to 1. -/
def specMStep (reads classifications : List String) (a : String → ℚ)
    (k : String) : ℚ :=
  specMRaw reads classifications a k
    / ((catUniverse classifications).map
        (specMRaw reads classifications a)).sum

/-! ## The claims -/

/-- **C1** (code bug): the iteration of `expectation_maximization` does not
compute the spec's E-step and M-step.  At `reads = [r1,r1,r2,r3]`,
`classifications = [A,B,A,A]` (one ambiguous read `r1 → {A,B}`, two unique
reads on `A`), the first pass yields the abundance `{A: 5/6, B: 1/6}`; the
code's second pass leaves it unchanged (its E-step weight is the constant
pair count, because `by_read` groups by the DataFrame row index), whereas
the spec's E/M-step moves the abundance at `A` to `17/18 ≠ 5/6`. -/
theorem claim_C1_code_bug :
    (emStep ["r1", "r1", "r2", "r3"] ["A", "B", "A", "A"] 0
        (initAbundance ["A", "B", "A", "A"])).1
      = [("A", PFloat.fin (5/6)), ("B", PFloat.fin (1/6))] ∧
    (emStep ["r1", "r1", "r2", "r3"] ["A", "B", "A", "A"] 0
        [("A", PFloat.fin (5/6)), ("B", PFloat.fin (1/6))]).1
      = [("A", PFloat.fin (5/6)), ("B", PFloat.fin (1/6))] ∧
    specMStep ["r1", "r1", "r2", "r3"] ["A", "B", "A", "A"]
        (fun k => if k == "A" then 5/6 else 1/6) "A" = 17/18 ∧
    lookupPF (emStep ["r1", "r1", "r2", "r3"] ["A", "B", "A", "A"] 0
        [("A", PFloat.fin (5/6)), ("B", PFloat.fin (1/6))]).1 "A"
      ≠ PFloat.fin (17/18) :=
  ⟨by decide, by decide, by decide, by decide⟩

/-- **C2** (confirmed): on a deduplicated input with ambiguous reads,
`noise_threshold = 0` and `max_iter ≥ 1`: (i) each `by_read` group —
grouping by the DataFrame row index — is a single row; (ii) the E-step
weight of every category equals the number of distinct ambiguous
(read, category) rows carrying it, for any abundance vector that is finite
and nonzero on the ambiguous genes — independent of the abundances;
(iii) the second pass reproduces the first pass's abundance exactly; and
(iv) whenever the function returns, the reported iteration count is at most
1, regardless of `max_iter`. -/
theorem claim_C2 (reads classifications : List String) (mi : ℕ) (md : ℚ)
    (vb : Bool) (hdedup : (reads.zip classifications).Nodup)
    (hamb : ambRows reads classifications ≠ []) (hmi : 1 ≤ mi) :
    (∀ r ∈ ambRows reads classifications,
      (ambRows reads classifications).filter (fun s => s.idx == r.idx) = [r]) ∧
    (∀ a : Series, posOnAmb reads classifications a →
      ∀ k, nJ reads classifications a k = cntQ reads classifications k) ∧
    ((emStep reads classifications 0
        (emStep reads classifications 0 (initAbundance classifications)).1).1
      = (emStep reads classifications 0 (initAbundance classifications)).1) ∧
    (∀ s n, expectation_maximization reads classifications 0 mi md vb
        = .ok (s, n) → n ≤ 1) :=
  ⟨fun r hr => filter_idx_singleton (ambRows_idx_nodup _ _) hr,
    fun _ ha k => nJ_eq_cntQ ha k,
    emStep_iterate_fixed hamb,
    fun _ n hok => em_n_le_one hamb hmi hok⟩

theorem claim_C2_witness :
    expectation_maximization ["r1", "r1", "r2"] ["A", "B", "A"] 0 1000
        (1/10^10) false
      = .ok ([("A", PFloat.fin (3/4)), ("B", PFloat.fin (1/4))], 1) ∧
    (1 : ℕ) ≤ 1 := by
  refine ⟨by decide, ?_⟩
  exact (claim_C2 ["r1", "r1", "r2"] ["A", "B", "A"] 1000 (1/10^10) false
    (by decide) (by decide) (by decide)).2.2.2
    [("A", PFloat.fin (3/4)), ("B", PFloat.fin (1/4))] 1 (by decide)

/-- **C3 counterexample**: a valid input (non-empty assignments,
`noise_threshold = 2/5 ∈ [0,1)`, `max_iterations = 1000`,
`max_delta = 1e-10`, one ambiguous read) on which the function returns
normally with an all-NaN abundance: the values sum to NaN, not to 1 within
any tolerance.  (De-noising zeroes all three categories, the following
renormalization divides 0 by 0, and the skip-NaN convergence delta is 0, so
the loop "converges" instantly to the poisoned vector.) -/
theorem claim_C3_counterexample :
    expectation_maximization ["m1", "m2", "m3", "y", "y", "y"]
        ["A", "B", "C", "A", "B", "C"] (2/5) 1000 (1/10^10) false
      = .ok ([("A", PFloat.nan), ("B", PFloat.nan), ("C", PFloat.nan)], 0) ∧
    totalMass [("A", PFloat.nan), ("B", PFloat.nan), ("C", PFloat.nan)]
      = PFloat.nan :=
  ⟨by decide, by decide⟩

/-- **C3 (amended)**: for inputs with at least one ambiguous read,
`noise_threshold = 0` and at least one unique read, every normal return of
`expectation_maximization` has values summing to exactly 1 (the
no-ambiguous-reads short-circuit, which returns raw counts, is exempt).
With a positive noise threshold the returned values can instead be
NaN-filled, as the counterexample shows. -/
theorem claim_C3 (reads classifications : List String) (mi : ℕ) (md : ℚ)
    (vb : Bool) (s : Series) (n : ℕ)
    (hamb : ambRows reads classifications ≠ [])
    (hsu : 0 < sumUnique reads classifications)
    (hok : expectation_maximization reads classifications 0 mi md vb
      = .ok (s, n)) :
    totalMass s = .fin 1 := by
  rw [em_result_eq_emFix hamb hsu hok]
  exact totalMass_emFix hamb hsu

theorem claim_C3_witness :
    totalMass [("A", PFloat.fin (3/4)), ("B", PFloat.fin (1/4))] = .fin 1 :=
  claim_C3 ["r1", "r1", "r2"] ["A", "B", "A"] 1000 (1/10^10) false
    [("A", PFloat.fin (3/4)), ("B", PFloat.fin (1/4))] 1
    (by decide) (by decide) (by decide)

/-- **C4** (code bug): on scenario 3 — `noise_threshold = 1/2` on a
distribution giving three categories ≈ 1/3 each — the function does NOT
raise a `DegenerateDistribution` error (no such error exists in the
source): de-noising zeroes all categories, the renormalization divides 0 by
0, and the skip-NaN delta is 0, so the function silently returns the
NaN-filled abundance with 0 iterations. -/
theorem claim_C4_code_bug :
    expectation_maximization ["u1", "u2", "u3", "x", "x", "x"]
        ["A", "B", "C", "A", "B", "C"] (1/2) 1000 (1/10^10) false
      = .ok ([("A", PFloat.nan), ("B", PFloat.nan), ("C", PFloat.nan)], 0) ∧
    expectation_maximization ["u1", "u2", "u3", "x", "x", "x"]
        ["A", "B", "C", "A", "B", "C"] (1/2) 1000 (1/10^10) false
      ≠ .error .degenerateDistribution :=
  ⟨by decide, by decide⟩

/-- **C5** (code bug): with ambiguous reads but no unique reads
(`Σunique_counts = 0`), the unique-mass term `unique_genes /
unique_genes.sum()` is 0/0 = NaN and poisons the whole M-step: the function
returns a NaN-filled abundance (with 0 iterations, since the skip-NaN delta
is 0) instead of treating the unique-mass term as zero contribution. -/
theorem claim_C5_code_bug :
    expectation_maximization ["r1", "r1", "r2", "r2"] ["A", "B", "A", "B"] 0
        1000 (1/10^10) false
      = .ok ([("A", PFloat.nan), ("B", PFloat.nan)], 0) ∧
    lookupPF [("A", PFloat.nan), ("B", PFloat.nan)] "A" = PFloat.nan :=
  ⟨by decide, by decide⟩

/-- **C6** (confirmed): on a non-empty input in which, after deduplication,
every read has exactly one distinct category, the EM loop is skipped and
the per-category unique-read counts are returned with iteration count 1;
the count of category `k` is the number of deduplicated rows carrying `k`. -/
theorem claim_C6 (reads classifications : List String) (nt md : ℚ) (mi : ℕ)
    (vb : Bool) (hne : classifications ≠ [])
    (huniq : ∀ r ∈ reads, (readCats reads classifications r).length = 1) :
    expectation_maximization reads classifications nt mi md vb
      = .ok (uniqueGenes reads classifications, 1) ∧
    ∀ k, uniqueGenesVal reads classifications k =
      (((dfRows reads classifications).filter
        (fun row => row.gene == k)).length : ℚ) :=
  ⟨em_short_circuit hne (ambRows_nil_of_all_unique huniq),
    uniqueGenesVal_of_all_unique huniq⟩

theorem claim_C6_witness :
    expectation_maximization ["r1", "r2", "r3"] ["A", "A", "B"] 0 1000
        (1/10^10) false
      = .ok (uniqueGenes ["r1", "r2", "r3"] ["A", "A", "B"], 1) ∧
    uniqueGenes ["r1", "r2", "r3"] ["A", "A", "B"]
      = [("A", PFloat.fin 2), ("B", PFloat.fin 1)] := by
  refine ⟨(claim_C6 ["r1", "r2", "r3"] ["A", "A", "B"] 0 (1/10^10) 1000 false
    (by decide) (by decide)).1, by decide⟩

/-- **C7** (confirmed): on both the short-circuit path and the loop path,
the index of the returned series is exactly the set of distinct categories
of the input — no category added, none dropped. -/
theorem claim_C7 (reads classifications : List String) (nt md : ℚ) (mi : ℕ)
    (vb : Bool) (s : Series) (n : ℕ)
    (hok : expectation_maximization reads classifications nt mi md vb
      = .ok (s, n)) :
    (s.map Prod.fst).Nodup ∧
    ∀ k, k ∈ s.map Prod.fst ↔ k ∈ classifications := by
  obtain ⟨dopt, hfull⟩ := em_ok_of_full hok
  have hkeys := em_full_keys hfull
  rw [hkeys]
  exact ⟨nodup_uniqueKeys _, fun _ => mem_uniqueKeys⟩

theorem claim_C7_witness :
    (([("A", PFloat.fin (3/4)), ("B", PFloat.fin (1/4))].map Prod.fst).Nodup) ∧
    ("B" ∈ [("A", PFloat.fin (3/4)), ("B", PFloat.fin (1/4))].map Prod.fst
      ↔ "B" ∈ ["A", "B", "A"]) := by
  have h := claim_C7 ["r1", "r1", "r2"] ["A", "B", "A"] 0 (1/10^10) 1000 false
    [("A", PFloat.fin (3/4)), ("B", PFloat.fin (1/4))] 1 (by decide)
  exact ⟨h.1, h.2 "B"⟩

/-- **C8** (confirmed): the loop always terminates (the fuel sentinel is
unreachable), and a normal loop exit happens exactly at the break test:
the final `delta` satisfies `delta ≤ max_delta` or the reported count has
reached `max_iter`; the count never exceeds `max_iter`; and when the delta
criterion fails at the exit — as for an input engineered never to converge
— the count equals `max_iter` exactly. -/
theorem claim_C8 (reads classifications : List String) (nt md : ℚ) (mi : ℕ)
    (vb : Bool) :
    expectation_maximization_full reads classifications nt mi md vb
      ≠ .error .fuelExhausted ∧
    ∀ s n delta,
      expectation_maximization_full reads classifications nt mi md vb
        = .ok (s, n, some delta) →
      (delta ≤ md ∨ mi ≤ n) ∧ n ≤ mi ∧ (¬ delta ≤ md → n = mi) := by
  refine ⟨em_full_ne_fuelExhausted, fun s n delta hok => ?_⟩
  obtain ⟨h1, h2⟩ := em_full_break_char hok
  refine ⟨h1, h2, fun hnd => ?_⟩
  rcases h1 with h | h
  · exact absurd h hnd
  · omega

theorem claim_C8_witness :
    expectation_maximization_full ["x", "x", "u1", "u2", "u3"]
        ["A", "B", "A", "C", "C"] (1/5) 1 (1/10^10) false
      = .ok ([("A", PFloat.fin (1/2)), ("B", PFloat.fin 0),
          ("C", PFloat.fin (1/2))], 1, some (1/7)) ∧
    ¬ ((1/7 : ℚ) ≤ 1/10^10) ∧ (1 : ℕ) = 1 := by
  refine ⟨by decide, by decide, ?_⟩
  exact ((claim_C8 ["x", "x", "u1", "u2", "u3"] ["A", "B", "A", "C", "C"]
    (1/5) (1/10^10) 1 false).2
    [("A", PFloat.fin (1/2)), ("B", PFloat.fin 0), ("C", PFloat.fin (1/2))]
    1 (1/7) (by decide)).2.2 (by decide)

/-- **C9** (code bug): verbose mode is not behaviour-preserving.  With
`max_iter = 50 < 100`, `int(max_iter/100) = 0`, and on the first
non-converged pass the progress-throttling expression
`n_step % int(max_iter/100)` raises `ZeroDivisionError` when
`verbose=True`, while the same input with `verbose=False` returns
normally. -/
theorem claim_C9_code_bug :
    expectation_maximization ["r1", "r1", "r2", "r3"] ["A", "B", "A", "A"] 0
        50 (1/10^10) true = .error .zeroDivisionError ∧
    expectation_maximization ["r1", "r1", "r2", "r3"] ["A", "B", "A", "A"] 0
        50 (1/10^10) false
      = .ok ([("A", PFloat.fin (5/6)), ("B", PFloat.fin (1/6))], 1) :=
  ⟨by decide, by decide⟩

/-- **C10 counterexample**: the empty input does NOT fail with the spec's
`InvalidInput` error; it raises `ZeroDivisionError` (from `1/g.shape[0]`
with an empty category universe). -/
theorem claim_C10_counterexample :
    expectation_maximization [] [] 0 1000 (1/10^10) false
      ≠ .error .invalidInput ∧
    expectation_maximization [] [] 0 1000 (1/10^10) false
      = .error .zeroDivisionError :=
  ⟨by decide, by decide⟩

/-- **C10 (amended)**: if the category universe built from the input is
empty, `expectation_maximization` fails immediately with a
`ZeroDivisionError` (computing the uniform initial abundance `1/|G|`
divides by zero), for every parameter setting, attempting no partial
computation. -/
theorem claim_C10 (nt md : ℚ) (mi : ℕ) (vb : Bool) :
    expectation_maximization [] [] nt mi md vb
      = .error .zeroDivisionError := rfl

theorem claim_C10_witness :
    expectation_maximization [] [] 0 1000 (1/10^10) false
      = .error .zeroDivisionError :=
  claim_C10 0 (1/10^10) 1000 false

end Biofrost
